import Mathlib

set_option maxRecDepth 100000

/-!
Shallow embedding of the blockchain module `rockturtles.py` (class `Blockchain`
plus the pieces of its behavior the Flask routes observe).

Modelling conventions:
* SHA-256 (`hashlib.sha256(...).hexdigest()`) is abstracted as a parameter
  `H : String → String`; every place the source hashes a string goes through `H`.
  The JSON serialization fed to the block hash (`json.dumps(block, sort_keys=True)`)
  is implemented concretely as `serializeBlock`.
* Python `int` is `Int` (the proof-of-work subtraction is signed) except where the
  source can only produce a `Nat` (list lengths / block indices).
* Python list indexing `l[i]` (which raises `IndexError` out of range and counts
  negative indices from the end) is `pyGet`; fallible operations return
  `Except PyErr _`, and mutating methods also return the post state, because a
  Python exception leaves earlier mutations in place.
* `datetime.datetime.now()` is nondeterministic, so constructors take the
  timestamp string as an explicit argument.
-/

namespace RockTurtles

/-- A pending transaction, as built by `Blockchain.add_transaction`:
`{'sender': sender, 'receiver': receiver, 'amount': amount}`. -/
structure Transaction where
  sender : String
  receiver : String
  amount : Int
  deriving DecidableEq, Repr

/-- A block, as built by `Blockchain.create_block`:
`{'index': ..., 'timestamp': ..., 'proof': ..., 'previous_hash': ..., 'transactions': ...}`. -/
structure Block where
  index : Nat
  timestamp : String
  proof : Int
  previous_hash : String
  transactions : List Transaction
  deriving DecidableEq, Repr

/-- Python exceptions that the modelled code can raise. -/
inductive PyErr where
  | indexError
  | connectionError
  deriving DecidableEq, Repr

/-- The mutable state of a `Blockchain` instance: `self.chain`,
`self.transactions` (the pending queue) and `self.nodes`. -/
structure Blockchain where
  chain : List Block
  transactions : List Transaction
  nodes : Finset String
  deriving DecidableEq

/-- Python list indexing `l[i]`: negative indices count from the end,
out-of-range indices raise `IndexError`. -/
def pyGet {α : Type} (l : List α) (i : Int) : Except PyErr α :=
  let j : Int := if i < 0 then i + l.length else i
  if j < 0 then .error .indexError
  else
    match l.get? j.toNat with
    | some a => .ok a
    | none => .error .indexError

/-! JSON serialization, mirroring Python's `json.dumps(block, sort_keys = True)`
with the default separators `', '` and `': '` and `ensure_ascii = True`. -/

/-- Lowercase hex digit. -/
def hexDigit (n : Nat) : Char :=
  if n < 10 then Char.ofNat (48 + n) else Char.ofNat (87 + n)

/-- `\uXXXX` escape for a BMP code point. -/
def uEscape (n : Nat) : List Char :=
  ['\\', 'u', hexDigit (n / 4096 % 16), hexDigit (n / 256 % 16),
   hexDigit (n / 16 % 16), hexDigit (n % 16)]

/-- How `json.dumps` (with `ensure_ascii=True`) renders one character inside a
string literal: short escapes for `"` `\` and common control characters,
`\uXXXX` for other control and non-ASCII characters (surrogate pairs above the
BMP), the character itself otherwise. -/
def escChar (c : Char) : List Char :=
  if c = '"' then ['\\', '"']
  else if c = '\\' then ['\\', '\\']
  else if c = Char.ofNat 8 then ['\\', 'b']
  else if c = Char.ofNat 9 then ['\\', 't']
  else if c = Char.ofNat 10 then ['\\', 'n']
  else if c = Char.ofNat 12 then ['\\', 'f']
  else if c = Char.ofNat 13 then ['\\', 'r']
  else if c.toNat < 32 then uEscape c.toNat
  else if c.toNat < 127 then [c]
  else if c.toNat ≤ 65535 then uEscape c.toNat
  else
    uEscape (55296 + (c.toNat - 65536) / 1024) ++ uEscape (56320 + (c.toNat - 65536) % 1024)

/-- A JSON string literal: `"` + escaped characters + `"`. -/
def jsonStr (s : String) : String :=
  String.mk ('"' :: (s.toList.flatMap escChar) ++ ['"'])

/-- `json.dumps` of a transaction dict with `sort_keys=True`:
keys in the order `amount`, `receiver`, `sender`. -/
def serializeTransaction (t : Transaction) : String :=
  "\x7b\"amount\": " ++ toString t.amount ++
  ", \"receiver\": " ++ jsonStr t.receiver ++
  ", \"sender\": " ++ jsonStr t.sender ++ "\x7d"

/-- Comma-separated JSON list rendering. -/
def jsonList (items : List String) : String :=
  "[" ++ String.intercalate ", " items ++ "]"

/-- `json.dumps(block, sort_keys=True)`: keys in the order
`index`, `previous_hash`, `proof`, `timestamp`, `transactions`. -/
def serializeBlock (b : Block) : String :=
  "\x7b\"index\": " ++ toString b.index ++
  ", \"previous_hash\": " ++ jsonStr b.previous_hash ++
  ", \"proof\": " ++ toString b.proof ++
  ", \"timestamp\": " ++ jsonStr b.timestamp ++
  ", \"transactions\": " ++ jsonList (b.transactions.map serializeTransaction) ++ "\x7d"

/-- `Blockchain.hash`: SHA-256 hex digest (the abstract `H`) of the sorted-keys
JSON dump of the block. -/
def hashBlock (H : String → String) (b : Block) : String :=
  H (serializeBlock b)

/-- `Blockchain.create_block`: build the block dict from `len(self.chain) + 1`,
the timestamp, the given proof and previous hash and the pending transactions,
then clear the pending queue and append the block to the chain.
Returns the block and the post state. -/
def create_block (st : Blockchain) (proof : Int) (previous_hash : String)
    (timestamp : String) : Block × Blockchain :=
  let block : Block :=
    { index := st.chain.length + 1
      timestamp := timestamp
      proof := proof
      previous_hash := previous_hash
      transactions := st.transactions }
  (block, { st with transactions := [], chain := st.chain ++ [block] })

/-- `Blockchain.__init__`: empty chain and pending queue, then
`create_block(proof = 1, previous_hash = '0')`, then an empty node set. -/
def init (timestamp : String) : Blockchain :=
  let st0 : Blockchain := { chain := [], transactions := [], nodes := ∅ }
  (create_block st0 1 "0" timestamp).2

/-- `Blockchain.get_previous_block`: `self.chain[-1]`. -/
def get_previous_block (st : Blockchain) : Except PyErr Block :=
  pyGet st.chain (-1)

/-- The four-leading-zeros digest test shared by `proof_of_work` and
`is_chain_valid`: `sha256(str(p**2 - q**2)).hexdigest()[:4] == '0000'`,
where `q` is the previous proof and `p` the candidate/current proof. -/
def powCheck (H : String → String) (previous_proof p : Int) : Bool :=
  (H (toString (p * p - previous_proof * previous_proof))).take 4 == "0000"

/-- The `while check_proof is False` loop of `Blockchain.proof_of_work`,
with explicit fuel standing for the unbounded search: try `new_proof`,
return it if its digest passes, otherwise continue with `new_proof + 1`. -/
def powLoop (H : String → String) (previous_proof : Int) : Nat → Int → Option Int
  | 0, _ => none
  | fuel + 1, new_proof =>
    if powCheck H previous_proof new_proof then some new_proof
    else powLoop H previous_proof fuel (new_proof + 1)

/-- `Blockchain.proof_of_work`: the search starts at `new_proof = 1`.
`none` means the given fuel ran out before a proof was found (the source's
loop would still be running). -/
def proof_of_work (H : String → String) (previous_proof : Int) (fuel : Nat) :
    Option Int :=
  powLoop H previous_proof fuel 1

/-- One iteration's checks of the `is_chain_valid` loop for an adjacent pair:
the current block's `previous_hash` must equal the hash of the previous block,
and the pair of proofs must pass the four-zeros digest test. -/
def pairOk (H : String → String) (previous_block block : Block) : Bool :=
  block.previous_hash == hashBlock H previous_block &&
  powCheck H previous_block.proof block.proof

/-- The `while block_index < len(chain)` loop of `is_chain_valid`, walking the
blocks after the first: return `false` at the first adjacent pair failing
either check, `true` when the walk completes. -/
def chainOkFrom (H : String → String) : Block → List Block → Bool
  | _, [] => true
  | previous_block, block :: rest =>
    if block.previous_hash != hashBlock H previous_block then false
    else if (H (toString (block.proof * block.proof - previous_block.proof * previous_block.proof))).take 4 != "0000" then false
    else chainOkFrom H block rest

/-- `Blockchain.is_chain_valid`: reads `chain[0]` (raising `IndexError` on an
empty chain), then runs the validation loop from index 1. -/
def is_chain_valid (H : String → String) (chain : List Block) :
    Except PyErr Bool :=
  match pyGet chain 0 with
  | .error e => .error e
  | .ok previous_block => .ok (chainOkFrom H previous_block (chain.drop 1))

/-- `Blockchain.add_transaction`: append the transaction dict to the pending
queue, then return `self.get_previous_block()['index'] + 1`. The state is
returned alongside because the append happens before `get_previous_block` can
raise on an empty chain. -/
def add_transaction (st : Blockchain) (sender receiver : String) (amount : Int) :
    Except PyErr Int × Blockchain :=
  let st' := { st with transactions := st.transactions ++ [⟨sender, receiver, amount⟩] }
  match get_previous_block st' with
  | .error e => (.error e, st')
  | .ok previous_block => (.ok ((previous_block.index : Int) + 1), st')

/-! `urllib.parse.urlparse` — just enough of CPython's `urlsplit` to compute
`netloc`, which is all `add_node` reads. Modelled on CPython ≥ 3.7: the input
is sanitized (tab/CR/LF removed, C0-control-or-space stripped at both ends),
a `scheme:` head is split off only when the first character is an ASCII letter
and everything before the first `:` is a scheme character, and `netloc` is
nonempty only when the remainder starts with `//`. -/

/-- Characters allowed in a URL scheme after the initial letter. -/
def isSchemeChar (c : Char) : Bool :=
  c.isAlphanum || c = '+' || c = '-' || c = '.'

/-- CPython `urlsplit` input sanitization: drop tab, CR and LF everywhere and
strip C0-control-or-space characters from both ends. -/
def sanitizeUrl (cs : List Char) : List Char :=
  let cs := cs.filter (fun c => c ≠ Char.ofNat 9 ∧ c ≠ Char.ofNat 13 ∧ c ≠ Char.ofNat 10)
  let cs := cs.dropWhile (fun c => c.toNat ≤ 32)
  (cs.reverse.dropWhile (fun c => c.toNat ≤ 32)).reverse

/-- Remove a leading `scheme:` when present (CPython ≥ 3.7 rule: first char an
ASCII letter, all chars before the first `:` scheme characters). -/
def dropScheme (cs : List Char) : List Char :=
  match cs.span (fun c => c ≠ ':') with
  | (before, rest) =>
    match rest with
    | ':' :: tail =>
      match before with
      | [] => cs
      | c0 :: _ => if c0.isAlpha && before.all isSchemeChar then tail else cs
    | _ => cs

/-- Extract the network-location part: nonempty only after a leading `//`,
ending at the first `/`, `?` or `#`. -/
def splitNetloc (cs : List Char) : List Char :=
  match cs with
  | '/' :: '/' :: rest => rest.takeWhile (fun c => c ≠ '/' ∧ c ≠ '?' ∧ c ≠ '#')
  | _ => []

/-- `urlparse(address).netloc`. -/
def netloc (address : String) : String :=
  String.mk (splitNetloc (dropScheme (sanitizeUrl address.toList)))

/-- `Blockchain.add_node`: `self.nodes.add(urlparse(address).netloc)`. -/
def add_node (st : Blockchain) (address : String) : Blockchain :=
  { st with nodes := insert (netloc address) st.nodes }

/-! `Blockchain.replace_chain`. The peer fetch `requests.get(f'http://{node}/get_chain')`
is abstracted as `fetch : String → Except PyErr FetchResp`: an `Except.error`
models the `requests` exception an unreachable peer raises (uncaught in the
source), and a `FetchResp` bundles the status code with the `length` and
`chain` fields the code reads from `response.json()`. Iteration over the
Python set `self.nodes` has unspecified order, so the scan order is passed as
an explicit list of peers. -/

/-- A peer's HTTP response, with the two JSON fields `replace_chain` reads. -/
structure FetchResp where
  status : Nat
  length : Int
  chain : List Block
  deriving DecidableEq

/-- The `for node in network` loop of `replace_chain`, carrying the
`longest_chain` and `max_length` accumulators. A fetch error, or the
`IndexError` that `is_chain_valid` raises on an empty candidate chain,
propagates out of the loop. -/
def replaceLoop (H : String → String) (st : Blockchain)
    (fetch : String → Except PyErr FetchResp) :
    List String → Option (List Block) → Int → Except PyErr (Option Bool × Blockchain)
  | [], longest_chain, _ =>
    -- `if longest_chain:` — `None` and the empty list are both falsy;
    -- the replaced branch does `self.chain = longest_chain; return True`,
    -- the other path falls off the end of the function, returning `None`.
    match longest_chain with
    | some c => if c.isEmpty then .ok (none, st) else .ok (some true, { st with chain := c })
    | none => .ok (none, st)
  | node :: network, longest_chain, max_length =>
    match fetch node with
    | .error e => .error e
    | .ok response =>
      if response.status = 200 then
        if response.length > max_length then
          match is_chain_valid H response.chain with
          | .error e => .error e
          | .ok valid =>
            if valid then replaceLoop H st fetch network (some response.chain) response.length
            else replaceLoop H st fetch network longest_chain max_length
        else replaceLoop H st fetch network longest_chain max_length
      else replaceLoop H st fetch network longest_chain max_length

/-- `Blockchain.replace_chain`: scan the peers with `longest_chain = None` and
`max_length = len(self.chain)`; at the end adopt the best candidate (returning
`True`) or leave the state unchanged (falling through with `None`).
`some true` models Python `True`, `none` models Python `None`. -/
def replace_chain (H : String → String) (st : Blockchain) (peers : List String)
    (fetch : String → Except PyErr FetchResp) : Except PyErr (Option Bool × Blockchain) :=
  replaceLoop H st fetch peers none (st.chain.length : Int)

/-! Instrumented validation scan, used to express the short-circuit behavior of
`is_chain_valid`: alongside the boolean verdict it counts how many adjacent
pairs the loop examines. -/

/-- The validation walk, also counting examined adjacent pairs. -/
def validScan (H : String → String) : Block → List Block → Bool × Nat
  | _, [] => (true, 0)
  | previous_block, block :: rest =>
    if pairOk H previous_block block then
      let r := validScan H block rest
      (r.1, r.2 + 1)
    else (false, 1)

/-- The number of leading adjacent pairs of `b :: l` that pass both checks. -/
def leadPairs (H : String → String) (b : Block) (l : List Block) : Nat :=
  (((b :: l).zip l).takeWhile (fun pr => pairOk H pr.1 pr.2)).length

/-! Concrete fixtures used in closed runs of the model. -/

/-- A toy stand-in for the SHA-256 hex digest in concrete runs: prefixing the
input with four zeros makes every proof-of-work test pass while keeping
distinct inputs distinct. -/
def H0 : String → String := fun s => "0000" ++ s

/-- A digest function under which only the input `"9"` wins the proof-of-work
search: with `previous_proof = 0` the candidates hash `"1"`, `"4"`, `"9"`, ...
so the search stops at 3. -/
def Hpow : String → String := fun s => if s == "9" then "0000" else "1111"

/-- The genesis block of a ledger created at timestamp `"t0"`. -/
def gBlock : Block :=
  { index := 1, timestamp := "t0", proof := 1, previous_hash := "0", transactions := [] }

/-- A block extending `gBlock` under `H0`. -/
def wb1 : Block :=
  { index := 2, timestamp := "t1", proof := 2, previous_hash := hashBlock H0 gBlock,
    transactions := [] }

/-- A block extending `wb1` under `H0`, carrying one mined transaction. -/
def wb2 : Block :=
  { index := 3, timestamp := "t2", proof := 5, previous_hash := hashBlock H0 wb1,
    transactions := [⟨"A", "B", 10⟩] }

/-- `wb1` with only its timestamp changed. -/
def wb1t : Block := { wb1 with timestamp := "tampered" }

/-- `wb1` with only its proof changed. -/
def wb1p : Block := { wb1 with proof := 7 }

/-- `wb2` with only its previous hash changed. -/
def wb2h : Block := { wb2 with previous_hash := "evil" }

/-- `wb1` with only its previous hash changed. -/
def wb1h : Block := { wb1 with previous_hash := "evil" }

/-- A first block that differs from the genesis block in every checked field. -/
def foreignG : Block :=
  { index := 7, timestamp := "zzz", proof := 99, previous_hash := "not-zero",
    transactions := [] }

/-- A successor of `foreignG` under `H0`. -/
def foreignB1 : Block :=
  { index := 8, timestamp := "zzz2", proof := 100, previous_hash := hashBlock H0 foreignG,
    transactions := [] }

/-- A peer interface whose every fetch succeeds and returns the foreign chain. -/
def fetchForeign : String → Except PyErr FetchResp :=
  fun _ => .ok { status := 200, length := 2, chain := [foreignG, foreignB1] }

/-- A peer interface where every fetch raises a connection error. -/
def fetchDead : String → Except PyErr FetchResp :=
  fun _ => .error .connectionError

/-- A peer interface with one non-success peer and one peer offering a longer
valid chain. -/
def fetchW : String → Except PyErr FetchResp := fun p =>
  if p == "bad" then .ok { status := 500, length := 0, chain := [gBlock] }
  else if p == "good" then .ok { status := 200, length := 2, chain := [gBlock, wb1] }
  else .error .connectionError

/-- A local state whose chain already has two blocks. -/
def stLen2 : Blockchain := { init "t0" with chain := [gBlock, wb1] }

/-- A peer that reports a length of 99 for a chain that actually has two
blocks. -/
def fetchLiar : String → Except PyErr FetchResp :=
  fun _ => .ok { status := 200, length := 99, chain := [foreignG, foreignB1] }

/-- The adjacent-pair condition `is_chain_valid` enforces, as a relation. -/
def PairRel (H : String → String) (x y : Block) : Prop :=
  pairOk H x y = true

/-- The validation loop body, re-expressed through `pairOk`. -/
lemma chainOkFrom_cons (H : String → String) (prev b : Block) (rest : List Block) :
    chainOkFrom H prev (b :: rest) = (pairOk H prev b && chainOkFrom H b rest) := by
  show (if b.previous_hash != hashBlock H prev then false
      else if (H (toString (b.proof * b.proof - prev.proof * prev.proof))).take 4 != "0000"
        then false
      else chainOkFrom H b rest) = _
  unfold pairOk powCheck
  cases h1 : (b.previous_hash == hashBlock H prev) <;>
    cases h2 : ((H (toString (b.proof * b.proof - prev.proof * prev.proof))).take 4 == "0000") <;>
      simp [bne, h1, h2]

/-- The validation loop accepts exactly the chains all of whose adjacent pairs
pass both checks. -/
lemma chainOkFrom_iff_chain' (H : String → String) :
    ∀ (l : List Block) (b : Block),
      chainOkFrom H b l = true ↔ List.Chain' (PairRel H) (b :: l)
  | [], b => by simp [chainOkFrom]
  | x :: l, b => by
    rw [chainOkFrom_cons, Bool.and_eq_true, List.chain'_cons]
    exact and_congr Iff.rfl (chainOkFrom_iff_chain' H l x)

/-- `is_chain_valid` on a nonempty chain runs the loop from the head. -/
lemma is_chain_valid_cons (H : String → String) (b : Block) (l : List Block) :
    is_chain_valid H (b :: l) = .ok (chainOkFrom H b l) := rfl

/-- `is_chain_valid` on the empty chain raises `IndexError` at `chain[0]`. -/
lemma is_chain_valid_nil (H : String → String) :
    is_chain_valid H [] = .error .indexError := rfl

/-- A chain that validates successfully is nonempty. -/
lemma ne_nil_of_is_chain_valid_ok (H : String → String) {ch : List Block} {r : Bool}
    (h : is_chain_valid H ch = .ok r) : ch ≠ [] := by
  intro hc
  subst hc
  simp [is_chain_valid_nil] at h

/-- `is_chain_valid` answers `true` exactly on nonempty chains all of whose
adjacent pairs pass both checks. -/
lemma is_chain_valid_ok_true_iff (H : String → String) (b : Block) (l : List Block) :
    is_chain_valid H (b :: l) = .ok true ↔ List.Chain' (PairRel H) (b :: l) := by
  rw [is_chain_valid_cons, ← chainOkFrom_iff_chain' H l b]
  exact ⟨fun h => by injection h, fun h => by rw [h]⟩

/-- Hash linkage extracted from a valid chain: each block's `previous_hash`
equals the hash of its predecessor. -/
lemma link_of_chain' (H : String → String) {ch : List Block}
    (hc : List.Chain' (PairRel H) ch) (i : Nat) (hi : i + 1 < ch.length) :
    ch[i + 1].previous_hash = hashBlock H ch[i] := by
  have h := List.chain'_iff_get.mp hc i (by omega)
  unfold PairRel pairOk at h
  rw [Bool.and_eq_true] at h
  have h1 := h.1
  simp only [List.get_eq_getElem] at h1
  exact eq_of_beq h1

/-- Proof-of-work linkage extracted from a valid chain. -/
lemma pow_of_chain' (H : String → String) {ch : List Block}
    (hc : List.Chain' (PairRel H) ch) (i : Nat) (hi : i + 1 < ch.length) :
    powCheck H ch[i].proof ch[i + 1].proof = true := by
  have h := List.chain'_iff_get.mp hc i (by omega)
  unfold PairRel pairOk at h
  rw [Bool.and_eq_true] at h
  have h2 := h.2
  simpa only [List.get_eq_getElem] using h2

/-- One failing adjacent pair makes `is_chain_valid` answer `false`. -/
lemma is_chain_valid_false_of_bad_pair (H : String → String) {ch : List Block}
    (hne : ch ≠ []) (i : Nat) (hi : i + 1 < ch.length)
    (hbad : ¬ pairOk H ch[i] ch[i + 1] = true) :
    is_chain_valid H ch = .ok false := by
  obtain ⟨b, l, rfl⟩ : ∃ b l, ch = b :: l := by
    cases ch with
    | nil => exact absurd rfl hne
    | cons b l => exact ⟨b, l, rfl⟩
  rw [is_chain_valid_cons]
  cases hv : chainOkFrom H b l with
  | false => rfl
  | true =>
    have := List.chain'_iff_get.mp ((chainOkFrom_iff_chain' H l b).mp hv) i (by
      simp only [List.length_cons] at hi ⊢
      omega)
    simp only [List.get_eq_getElem] at this
    exact absurd this hbad

/-- The instrumented scan computes the same verdict as the validation loop. -/
lemma validScan_fst (H : String → String) :
    ∀ (l : List Block) (b : Block), (validScan H b l).1 = chainOkFrom H b l
  | [], _ => rfl
  | x :: l, b => by
    rw [chainOkFrom_cons]
    unfold validScan
    cases h : pairOk H b x <;> simp [h, validScan_fst H l x]

/-- Unfolding `leadPairs` by one pair. -/
lemma leadPairs_cons (H : String → String) (b x : Block) (l : List Block) :
    leadPairs H b (x :: l) = if pairOk H b x then leadPairs H x l + 1 else 0 := by
  unfold leadPairs
  rw [List.zip_cons_cons, List.takeWhile_cons]
  cases h : pairOk H b x <;> simp [h]

/-- The number of pairs the loop examines: all of them when every pair passes,
and exactly one more than the passing prefix when some pair fails. -/
lemma validScan_snd (H : String → String) :
    ∀ (l : List Block) (b : Block),
      (validScan H b l).2 = min l.length (leadPairs H b l + 1)
  | [], b => by simp [validScan, leadPairs]
  | x :: l, b => by
    unfold validScan
    rw [leadPairs_cons]
    cases h : pairOk H b x
    · simp [h]
    · simp only [h, if_true, List.length_cons]
      rw [validScan_snd H l x]
      omega

/-- Python `l[-1]` on a nonempty list returns the last element. -/
lemma pyGet_neg_one {α : Type} (l : List α) (hne : l ≠ []) :
    pyGet l (-1) = .ok (l.getLast hne) := by
  unfold pyGet
  have hlen : 1 ≤ l.length := List.length_pos.mpr hne
  have h1 : ((-1 : Int) < 0) = True := by simp
  simp only [h1, if_true]
  have h2 : (-1 + (l.length : Int) < 0) = False := by
    simp only [eq_iff_iff, iff_false, not_lt]
    omega
  simp only [h2, if_false]
  have h3 : (-1 + (l.length : Int)).toNat = l.length - 1 := by omega
  rw [h3, List.getLast_eq_getElem]
  rw [List.get?_eq_get (by omega)]
  simp [List.get_eq_getElem]

/-- The proof-of-work loop, when it returns, returns a passing candidate and
every candidate from the start value up to it fails the digest test. -/
lemma powLoop_spec (H : String → String) (previous_proof : Int) :
    ∀ (fuel : Nat) (start p : Int),
      powLoop H previous_proof fuel start = some p →
      powCheck H previous_proof p = true ∧ start ≤ p ∧
        ∀ q : Int, start ≤ q → q < p → powCheck H previous_proof q = false
  | 0, _, _ => by
    intro h
    exact Option.noConfusion h
  | fuel + 1, start, p => by
    intro h
    rw [show powLoop H previous_proof (fuel + 1) start
        = (if powCheck H previous_proof start then some start
           else powLoop H previous_proof fuel (start + 1)) from rfl] at h
    by_cases hc : powCheck H previous_proof start = true
    · rw [if_pos hc] at h
      injection h with h
      subst h
      exact ⟨hc, le_refl _, fun q h1 h2 => absurd h1 (by omega)⟩
    · rw [if_neg hc] at h
      obtain ⟨h1, h2, h3⟩ := powLoop_spec H previous_proof fuel (start + 1) p h
      refine ⟨h1, by omega, fun q hq1 hq2 => ?_⟩
      by_cases hq : q = start
      · subst hq
        exact Bool.not_eq_true _ ▸ (by simpa using hc)
      · exact h3 q (by omega) hq2

/-- The `replace_chain` scan, assuming every remaining fetch succeeds and every
fetched 200-response carries a nonempty chain: it finishes without an
exception, never touches the pending queue or the node set, and either adopts
some peer's valid chain whose reported length exceeds the local chain's
original length (returning `True`) or leaves the state untouched (returning
`None`); moreover the scan is complete — if a candidate is already in hand or
some remaining peer qualifies (status 200, reported length above the original
local length, revalidating chain), the scan does end in adoption. -/
lemma replaceLoop_spec (H : String → String) (st : Blockchain)
    (fetch : String → Except PyErr FetchResp) (all : List String) :
    ∀ (rem : List String) (longest : Option (List Block)) (maxLen : Int),
      (∀ p ∈ rem, p ∈ all) →
      (∀ p ∈ rem, ∃ r, fetch p = .ok r) →
      (∀ p ∈ rem, ∀ r, fetch p = .ok r → r.status = 200 → r.chain ≠ []) →
      ((st.chain.length : Int) ≤ maxLen) →
      ((longest = none ∧ maxLen = (st.chain.length : Int)) ∨
        ∃ c p r, longest = some c ∧ p ∈ all ∧ fetch p = .ok r ∧
          r.status = 200 ∧ r.chain = c ∧ r.length = maxLen ∧
          is_chain_valid H c = .ok true ∧ (st.chain.length : Int) < maxLen) →
      ∃ res st', replaceLoop H st fetch rem longest maxLen = .ok (res, st') ∧
        st'.transactions = st.transactions ∧ st'.nodes = st.nodes ∧
        ((res = none ∧ st' = st) ∨
         (res = some true ∧ ∃ p r, p ∈ all ∧ fetch p = .ok r ∧ r.status = 200 ∧
            st'.chain = r.chain ∧ (st.chain.length : Int) < r.length ∧
            is_chain_valid H r.chain = .ok true)) ∧
        ((longest ≠ none ∨ ∃ p ∈ rem, ∃ r, fetch p = .ok r ∧ r.status = 200 ∧
            (st.chain.length : Int) < r.length ∧ is_chain_valid H r.chain = .ok true) →
          res = some true) := by
  intro rem
  induction rem with
  | nil =>
    intro longest maxLen _ _ _ _ hinv
    cases hinv with
    | inl h =>
      obtain ⟨h, _⟩ := h
      subst h
      refine ⟨none, st, rfl, rfl, rfl, Or.inl ⟨rfl, rfl⟩, ?_⟩
      intro hq
      rcases hq with hne | ⟨p, hp, _⟩
      · exact absurd rfl hne
      · exact absurd hp (List.not_mem_nil p)
    | inr h =>
      obtain ⟨c, p, r, hl, hp, hf, hs, hcc, _hlen, hval, hlt⟩ := h
      subst hl
      have hne := ne_nil_of_is_chain_valid_ok H hval
      obtain ⟨b, l, rfl⟩ : ∃ b l, c = b :: l := by
        cases c with
        | nil => exact absurd rfl hne
        | cons b l => exact ⟨b, l, rfl⟩
      refine ⟨some true, { st with chain := b :: l }, rfl, rfl, rfl,
        Or.inr ⟨rfl, p, r, hp, hf, hs, ?_, ?_, ?_⟩, fun _ => rfl⟩
      · rw [hcc]
      · omega
      · rw [hcc]
        exact hval
  | cons node rest ih =>
    intro longest maxLen hsub hok h200 hle hinv
    obtain ⟨r, hr⟩ := hok node (List.mem_cons_self node rest)
    have hsub' : ∀ p ∈ rest, p ∈ all := fun p hp => hsub p (List.mem_cons_of_mem _ hp)
    have hok' : ∀ p ∈ rest, ∃ q, fetch p = .ok q :=
      fun p hp => hok p (List.mem_cons_of_mem _ hp)
    have h200' : ∀ p ∈ rest, ∀ q, fetch p = .ok q → q.status = 200 → q.chain ≠ [] :=
      fun p hp => h200 p (List.mem_cons_of_mem _ hp)
    simp only [replaceLoop, hr]
    by_cases hs : r.status = 200
    · rw [if_pos hs]
      by_cases hgt : r.length > maxLen
      · rw [if_pos hgt]
        have hne : r.chain ≠ [] := h200 node (List.mem_cons_self node rest) r hr hs
        obtain ⟨b, l, hbl⟩ : ∃ b l, r.chain = b :: l := by
          cases hc : r.chain with
          | nil => exact absurd hc hne
          | cons b l => exact ⟨b, l, rfl⟩
        have hiv : is_chain_valid H r.chain = .ok (chainOkFrom H b l) := by
          rw [hbl]
          rfl
        rw [hiv]
        cases hv : chainOkFrom H b l with
        | true =>
          obtain ⟨res, st', heq, ht, hn, hdisj, hcomp⟩ :=
            ih (some r.chain) r.length hsub' hok' h200' (by omega)
              (Or.inr ⟨r.chain, node, r, rfl, hsub node (List.mem_cons_self node rest),
                hr, hs, rfl, rfl, by rw [hiv, hv], by omega⟩)
          exact ⟨res, st', heq, ht, hn, hdisj, fun _ => hcomp (Or.inl (by simp))⟩
        | false =>
          obtain ⟨res, st', heq, ht, hn, hdisj, hcomp⟩ :=
            ih longest maxLen hsub' hok' h200' hle hinv
          refine ⟨res, st', heq, ht, hn, hdisj, ?_⟩
          intro hq
          apply hcomp
          rcases hq with hne' | ⟨p, hp, r', hr', hs', hlen', hval'⟩
          · exact Or.inl hne'
          · rcases List.mem_cons.mp hp with rfl | hp'
            · rw [hr] at hr'
              injection hr' with hr'
              subst hr'
              rw [hiv, hv] at hval'
              exact absurd hval' (by simp)
            · exact Or.inr ⟨p, hp', r', hr', hs', hlen', hval'⟩
      · rw [if_neg hgt]
        obtain ⟨res, st', heq, ht, hn, hdisj, hcomp⟩ :=
          ih longest maxLen hsub' hok' h200' hle hinv
        refine ⟨res, st', heq, ht, hn, hdisj, ?_⟩
        intro hq
        apply hcomp
        rcases hq with hne' | ⟨p, hp, r', hr', hs', hlen', hval'⟩
        · exact Or.inl hne'
        · rcases List.mem_cons.mp hp with rfl | hp'
          · rw [hr] at hr'
            injection hr' with hr'
            subst hr'
            rcases hinv with ⟨_, hM⟩ | ⟨c, p', r'', hl, _⟩
            · exact absurd hlen' (by omega)
            · exact Or.inl (by simp [hl])
          · exact Or.inr ⟨p, hp', r', hr', hs', hlen', hval'⟩
    · rw [if_neg hs]
      obtain ⟨res, st', heq, ht, hn, hdisj, hcomp⟩ :=
        ih longest maxLen hsub' hok' h200' hle hinv
      refine ⟨res, st', heq, ht, hn, hdisj, ?_⟩
      intro hq
      apply hcomp
      rcases hq with hne' | ⟨p, hp, r', hr', hs', hlen', hval'⟩
      · exact Or.inl hne'
      · rcases List.mem_cons.mp hp with rfl | hp'
        · rw [hr] at hr'
          injection hr' with hr'
          subst hr'
          exact absurd hs' hs
        · exact Or.inr ⟨p, hp', r', hr', hs', hlen', hval'⟩

/-- `add_transaction` always returns the state with the transaction appended,
whether or not `get_previous_block` raises. -/
lemma add_transaction_snd (st : Blockchain) (s r : String) (a : Int) :
    (add_transaction st s r a).2
      = { st with transactions := st.transactions ++ [⟨s, r, a⟩] } := by
  unfold add_transaction
  cases h : get_previous_block { st with transactions := st.transactions ++ [⟨s, r, a⟩] } <;>
    simp [h]

/-- On a nonempty chain, `add_transaction` returns the last block's index
plus one. -/
lemma add_transaction_fst (st : Blockchain) (s r : String) (a : Int)
    (h : st.chain ≠ []) :
    (add_transaction st s r a).1 = .ok (((st.chain.getLast h).index : Int) + 1) := by
  have hpg : pyGet st.chain (-1) = .ok (st.chain.getLast h) := pyGet_neg_one st.chain h
  unfold add_transaction get_previous_block
  simp only [hpg]

/-! Claim theorems. -/

/-- C3: whenever `proof_of_work(previousProof)` returns (the fuel models the
unbounded `while` loop), it returns a candidate passing the four-zero digest
test — so `verify(previousProof, solve(previousProof))` holds — the search
started at 1, every earlier candidate fails the test (the search increments by
one and stops at the first success, with the signed difference
`p*p - previousProof*previousProof` rendered as a decimal string, minus sign
included, before hashing), and this very test is the proof-of-work condition
`is_chain_valid` applies to each adjacent pair of blocks. -/
theorem proof_of_work_first_and_sound (H : String → String) (previous_proof : Int)
    (fuel : Nat) (p : Int) (h : proof_of_work H previous_proof fuel = some p) :
    powCheck H previous_proof p = true ∧ 1 ≤ p ∧
      (∀ q : Int, 1 ≤ q → q < p → powCheck H previous_proof q = false) ∧
      (∀ x y : Block, pairOk H x y
        = (y.previous_hash == hashBlock H x && powCheck H x.proof y.proof)) := by
  obtain ⟨h1, h2, h3⟩ := powLoop_spec H previous_proof fuel 1 p h
  exact ⟨h1, h2, h3, fun x y => rfl⟩

/-- Witness for C3 at `previous_proof = 0` under `Hpow`: the search returns 3,
3 passes the digest test and the candidates 1 and 2 fail it. -/
theorem proof_of_work_first_and_sound_witness :
    powCheck Hpow 0 3 = true ∧ (1 : Int) ≤ 3 ∧
      (∀ q : Int, 1 ≤ q → q < 3 → powCheck Hpow 0 q = false) ∧
      (∀ x y : Block, pairOk Hpow x y
        = (y.previous_hash == hashBlock Hpow x && powCheck Hpow x.proof y.proof)) :=
  proof_of_work_first_and_sound Hpow 0 10 3 (by rfl)

/-- C5: on a nonempty chain, `validate` returns without an exception; its
verdict is `true` exactly when every adjacent pair passes the previous-hash
link and proof-of-work checks (in particular a length-1 chain is valid, the
pair relation being vacuous); and the number of pairs the loop examines is
`min` of the number of pairs and one more than the passing prefix — i.e. the
scan stops at the first failing pair and examines none after it. -/
theorem is_chain_valid_scan_spec (H : String → String) (b : Block) (l : List Block) :
    is_chain_valid H (b :: l) = .ok ((validScan H b l).1) ∧
    ((validScan H b l).1 = true ↔ List.Chain' (PairRel H) (b :: l)) ∧
    (validScan H b l).2 = min l.length (leadPairs H b l + 1) := by
  refine ⟨?_, ?_, validScan_snd H l b⟩
  · rw [validScan_fst H l b]
    exact is_chain_valid_cons H b l
  · rw [validScan_fst H l b]
    exact chainOkFrom_iff_chain' H l b

/-- C6: a freshly constructed `Blockchain` has a one-element chain holding the
genesis block (`index 1`, `proof 1`, `previous_hash "0"`, no transactions) and
an empty pending queue, for any construction-time timestamp. -/
theorem fresh_ledger_genesis (ts : String) :
    (init ts).chain
      = [{ index := 1, timestamp := ts, proof := 1, previous_hash := "0",
           transactions := [] }] ∧
    (init ts).chain.length = 1 ∧
    (init ts).transactions = [] :=
  ⟨rfl, rfl, rfl⟩

/-- C7: starting from an empty pending queue, `add_transaction("A","B",10)`
followed by `create_block(proof, hash)` yields a block whose transaction list
is exactly that one transaction, leaves the pending queue empty right after
the append, and gives the block the index `len(chain) + 1` at the moment of
construction. -/
theorem transaction_flow_spec (st : Blockchain) (h : st.transactions = [])
    (proof : Int) (previous_hash timestamp : String) :
    (create_block (add_transaction st "A" "B" 10).2 proof previous_hash timestamp).1.transactions
      = [⟨"A", "B", 10⟩] ∧
    (create_block (add_transaction st "A" "B" 10).2 proof previous_hash timestamp).2.transactions
      = [] ∧
    (create_block (add_transaction st "A" "B" 10).2 proof previous_hash timestamp).1.index
      = st.chain.length + 1 := by
  rw [add_transaction_snd st "A" "B" 10]
  unfold create_block
  refine ⟨?_, rfl, rfl⟩
  simp [h]

/-- Witness for C7 on a fresh ledger. -/
theorem transaction_flow_witness :
    (create_block (add_transaction (init "t0") "A" "B" 10).2 5 "ph" "t1").1.transactions
      = [⟨"A", "B", 10⟩] ∧
    (create_block (add_transaction (init "t0") "A" "B" 10).2 5 "ph" "t1").2.transactions
      = [] ∧
    (create_block (add_transaction (init "t0") "A" "B" 10).2 5 "ph" "t1").1.index
      = (init "t0").chain.length + 1 :=
  transaction_flow_spec (init "t0") rfl 5 "ph" "t1"

/-- C8: `get_previous_block` (`chain[-1]`) and `is_chain_valid` (`chain[0]`)
both index unconditionally and raise `IndexError` on an empty chain; when the
chain is nonempty both return normally (the last element and the loop verdict
respectively), so the error branch is unreachable under the nonemptiness
invariant. -/
theorem empty_chain_indexing_spec (H : String → String) :
    get_previous_block { chain := [], transactions := [], nodes := ∅ }
      = .error .indexError ∧
    is_chain_valid H [] = .error .indexError ∧
    (∀ (st : Blockchain) (h : st.chain ≠ []),
      get_previous_block st = .ok (st.chain.getLast h)) ∧
    (∀ (b : Block) (l : List Block),
      is_chain_valid H (b :: l) = .ok (chainOkFrom H b l)) := by
  refine ⟨rfl, rfl, ?_, ?_⟩
  · intro st h
    exact pyGet_neg_one st.chain h
  · intro b l
    rfl

/-- Witness for C8 on a fresh ledger and its one-block chain. -/
theorem empty_chain_indexing_witness :
    get_previous_block (init "t0") = .ok gBlock ∧
    is_chain_valid H0 [gBlock] = .ok (chainOkFrom H0 gBlock []) :=
  ⟨((empty_chain_indexing_spec H0).2.2.1 (init "t0") (by decide)).trans (by rfl),
   (empty_chain_indexing_spec H0).2.2.2 gBlock []⟩

/-- C10: `add_transaction` appends exactly one transaction at the end of the
pending queue whatever its prior contents, leaves the chain and the node set
unchanged, and (whenever the chain is nonempty, so that a last block exists)
returns the last block's index plus one. -/
theorem add_transaction_frame_spec (st : Blockchain) (sender receiver : String)
    (amount : Int) :
    (add_transaction st sender receiver amount).2.transactions
      = st.transactions ++ [⟨sender, receiver, amount⟩] ∧
    (add_transaction st sender receiver amount).2.chain = st.chain ∧
    (add_transaction st sender receiver amount).2.nodes = st.nodes ∧
    ∀ (h : st.chain ≠ []),
      (add_transaction st sender receiver amount).1
        = .ok (((st.chain.getLast h).index : Int) + 1) := by
  have h2 := add_transaction_snd st sender receiver amount
  exact ⟨by rw [h2], by rw [h2], by rw [h2],
    fun h => add_transaction_fst st sender receiver amount h⟩

/-- Witness for C10 on a fresh ledger with a nonempty pending queue. -/
theorem add_transaction_frame_witness :
    ({ init "t0" with transactions := [⟨"X", "Y", 1⟩] } : Blockchain).chain ≠ [] ∧
    (add_transaction { init "t0" with transactions := [⟨"X", "Y", 1⟩] } "A" "B" 10).2.transactions
      = [⟨"X", "Y", 1⟩, ⟨"A", "B", 10⟩] ∧
    (add_transaction { init "t0" with transactions := [⟨"X", "Y", 1⟩] } "A" "B" 10).1
      = .ok 2 := by
  refine ⟨by decide, ?_, ?_⟩
  · exact (add_transaction_frame_spec
      { init "t0" with transactions := [⟨"X", "Y", 1⟩] } "A" "B" 10).1
  · exact ((add_transaction_frame_spec
      { init "t0" with transactions := [⟨"X", "Y", 1⟩] } "A" "B" 10).2.2.2 (by decide)).trans
      (by rfl)

/-- C2 (amended): over a valid chain, tampering with a non-genesis block is
caught by `validate` in these cases: (a) for a block that is not the last,
any mutation whose result hashes differently from the original block (i.e.
absent a hash collision) — the successor's stored `previous_hash` no longer
matches; (b) for any non-genesis block, last or not, any mutation of its
`previous_hash` field, unconditionally — the field is compared directly
against the predecessor's recomputed hash. Mutations of the last block's
other fields are not covered (see the counterexample: its timestamp, index
and transactions are never examined). -/
theorem tamper_detection_amended (H : String → String) (ch : List Block) (j : Nat)
    (b' : Block) (hv : is_chain_valid H ch = .ok true) (hj1 : 1 ≤ j)
    (hjn : j < ch.length) :
    (j + 1 < ch.length → hashBlock H b' ≠ hashBlock H ch[j] →
      is_chain_valid H (ch.set j b') = .ok false) ∧
    (b'.previous_hash ≠ ch[j].previous_hash →
      is_chain_valid H (ch.set j b') = .ok false) := by
  obtain ⟨b0, l, rfl⟩ : ∃ b0 l, ch = b0 :: l := by
    cases ch with
    | nil => simp at hjn
    | cons b0 l => exact ⟨b0, l, rfl⟩
  have hch : List.Chain' (PairRel H) (b0 :: l) :=
    (is_chain_valid_ok_true_iff H b0 l).mp hv
  have hne : (b0 :: l).set j b' ≠ [] := by
    cases j with
    | zero => simp
    | succ n => simp
  constructor
  · intro hlt hhash
    refine is_chain_valid_false_of_bad_pair H hne j (by simpa using hlt) ?_
    intro hpair
    rw [List.getElem_set_self, List.getElem_set_ne (show j ≠ j + 1 by omega)] at hpair
    unfold pairOk at hpair
    rw [Bool.and_eq_true] at hpair
    have h1 := eq_of_beq hpair.1
    have h2 := link_of_chain' H hch j hlt
    exact hhash (h1.symm.trans h2)
  · intro hprev
    obtain ⟨j', rfl⟩ : ∃ j', j = j' + 1 := ⟨j - 1, by omega⟩
    refine is_chain_valid_false_of_bad_pair H hne j'
      (by simpa using hjn) ?_
    intro hpair
    rw [List.getElem_set_ne (show j' + 1 ≠ j' by omega), List.getElem_set_self] at hpair
    unfold pairOk at hpair
    rw [Bool.and_eq_true] at hpair
    have h1 := eq_of_beq hpair.1
    have h2 := link_of_chain' H hch j' (by simpa using hjn)
    exact hprev (h1.trans h2.symm)

/-- Witness for C2 (amended) on a three-block valid chain under `H0`:
mutating the middle block's proof is detected, and mutating the
`previous_hash` of the last block and of the middle block is detected. -/
theorem tamper_detection_amended_witness :
    is_chain_valid H0 ([gBlock, wb1, wb2].set 1 wb1p) = .ok false ∧
    is_chain_valid H0 ([gBlock, wb1, wb2].set 2 wb2h) = .ok false ∧
    is_chain_valid H0 ([gBlock, wb1, wb2].set 1 wb1h) = .ok false :=
  ⟨(tamper_detection_amended H0 [gBlock, wb1, wb2] 1 wb1p (by rfl) (by decide)
      (by decide)).1 (by decide) (by decide),
   (tamper_detection_amended H0 [gBlock, wb1, wb2] 2 wb2h (by rfl) (by decide)
      (by decide)).2 (by decide),
   (tamper_detection_amended H0 [gBlock, wb1, wb2] 1 wb1h (by rfl) (by decide)
      (by decide)).2 (by decide)⟩

/-- Counterexample to C2 as stated: on the valid two-block chain
`[gBlock, wb1]`, mutating the single field `timestamp` of the last
(non-genesis) block leaves `validate` answering `true` — last-block fields
other than `previous_hash` and `proof` are never examined. -/
theorem last_block_timestamp_tamper_undetected :
    is_chain_valid H0 [gBlock, wb1] = .ok true ∧
    [gBlock, wb1].set 1 wb1t = [gBlock, wb1t] ∧
    wb1t ≠ wb1 ∧ wb1t.timestamp ≠ wb1.timestamp ∧
    wb1t.index = wb1.index ∧ wb1t.proof = wb1.proof ∧
    wb1t.previous_hash = wb1.previous_hash ∧
    wb1t.transactions = wb1.transactions ∧
    is_chain_valid H0 [gBlock, wb1t] = .ok true :=
  ⟨by rfl, by rfl, by decide, by decide, rfl, rfl, rfl, rfl, by rfl⟩

/-- C4 (amended): `add("http://10.0.0.5:5000/get_chain")` yields a registry of
size 1 containing `"10.0.0.5:5000"`, but the follow-up `add("10.0.0.5:5000")`
parses to an empty network location (`urlparse` finds no `//`-prefixed
authority in a bare `host:port` string) and inserts `""`, giving a registry of
size 2; insertion is idempotent only under exact equality of the parsed
netloc, e.g. re-adding the same address leaves the registry unchanged. -/
theorem add_node_registry_amended :
    netloc "http://10.0.0.5:5000/get_chain" = "10.0.0.5:5000" ∧
    (add_node (init "t0") "http://10.0.0.5:5000/get_chain").nodes
      = {"10.0.0.5:5000"} ∧
    netloc "10.0.0.5:5000" = "" ∧
    (add_node (add_node (init "t0") "http://10.0.0.5:5000/get_chain")
        "10.0.0.5:5000").nodes
      = {"", "10.0.0.5:5000"} ∧
    ∀ (st : Blockchain) (a : String),
      (add_node (add_node st a) a).nodes = (add_node st a).nodes := by
  refine ⟨by decide, by decide, by decide, by decide, ?_⟩
  intro st a
  show insert (netloc a) (insert (netloc a) st.nodes) = insert (netloc a) st.nodes
  exact Finset.insert_idem _ _

/-- Counterexample to C4 as stated: after `add("http://10.0.0.5:5000/get_chain")`
then `add("10.0.0.5:5000")` the registry has two members, the second call
having inserted the empty string, not a duplicate of `"10.0.0.5:5000"`. -/
theorem add_node_bare_address_empty_netloc :
    (add_node (add_node (init "t0") "http://10.0.0.5:5000/get_chain")
        "10.0.0.5:5000").nodes.card = 2 ∧
    "" ∈ (add_node (add_node (init "t0") "http://10.0.0.5:5000/get_chain")
        "10.0.0.5:5000").nodes ∧
    ¬ (add_node (add_node (init "t0") "http://10.0.0.5:5000/get_chain")
        "10.0.0.5:5000").nodes.card = 1 :=
  ⟨by decide, by decide, by decide⟩

/-- C9: `validate` never compares the first block against the genesis
constants — here a chain whose first block has index 7, proof 99 and previous
hash `"not-zero"` still validates, and one `replace_chain` scan adopts it,
leaving a local chain whose element 0 is not the genesis block a fresh ledger
starts with. -/
theorem foreign_genesis_adopted :
    is_chain_valid H0 [foreignG, foreignB1] = .ok true ∧
    replace_chain H0 (init "t0") ["peer"] fetchForeign
      = .ok (some true, { init "t0" with chain := [foreignG, foreignB1] }) ∧
    (init "t0").chain.head? = some gBlock ∧
    [foreignG, foreignB1].head? = some foreignG ∧
    foreignG.index ≠ 1 ∧ foreignG.proof ≠ 1 ∧
    foreignG.previous_hash ≠ "0" ∧ foreignG ≠ gBlock :=
  ⟨by rfl, by rfl, rfl, rfl, by decide, by decide, by decide, by decide⟩

/-- C1 (amended): when every peer's fetch returns a response (and 200-responses
carry nonempty chains, so that revalidation cannot itself raise), the scan
skips peers whose status is not 200, and either adopts some scanned peer's
chain — one that revalidates and whose *reported* `length` field strictly
exceeds the local chain's original length — returning Python `True`, or
leaves the state exactly unchanged and falls through returning `None` (falsy),
never `False`; and the adoption is guaranteed — whenever at least one scanned
peer qualifies (status 200, reported length strictly above the original local
length, chain passing `validate`), the scan does return `True`, so the
unchanged/`None` outcome occurs exactly when no peer qualifies. Pending
transactions and the node set are untouched either way. An unreachable peer
instead raises out of the scan, which then returns no boolean at all (see the
counterexample). -/
theorem replace_chain_amended_spec (H : String → String) (st : Blockchain)
    (peers : List String) (fetch : String → Except PyErr FetchResp)
    (hok : ∀ p ∈ peers, ∃ r, fetch p = .ok r)
    (h200 : ∀ p ∈ peers, ∀ r, fetch p = .ok r → r.status = 200 → r.chain ≠ []) :
    ∃ res st', replace_chain H st peers fetch = .ok (res, st') ∧
      st'.transactions = st.transactions ∧ st'.nodes = st.nodes ∧
      ((res = none ∧ st' = st) ∨
       (res = some true ∧ ∃ p r, p ∈ peers ∧ fetch p = .ok r ∧ r.status = 200 ∧
          st'.chain = r.chain ∧ (st.chain.length : Int) < r.length ∧
          is_chain_valid H r.chain = .ok true)) ∧
      ((∃ p ∈ peers, ∃ r, fetch p = .ok r ∧ r.status = 200 ∧
          (st.chain.length : Int) < r.length ∧ is_chain_valid H r.chain = .ok true) →
        res = some true) := by
  obtain ⟨res, st', heq, ht, hn, hdisj, hcomp⟩ :=
    replaceLoop_spec H st fetch peers peers none (st.chain.length : Int)
      (fun _ hp => hp) hok h200 (le_refl _) (Or.inl ⟨rfl, rfl⟩)
  exact ⟨res, st', heq, ht, hn, hdisj, fun hq => hcomp (Or.inr hq)⟩

/-- Witness for C1 (amended): a two-peer scan with one non-success peer and
one qualifying peer, which therefore must be (and is) adopted. -/
theorem replace_chain_amended_witness :
    ∃ res st', replace_chain H0 (init "t0") ["bad", "good"] fetchW = .ok (res, st') ∧
      st'.transactions = (init "t0").transactions ∧ st'.nodes = (init "t0").nodes ∧
      ((res = none ∧ st' = init "t0") ∨
       (res = some true ∧ ∃ p r, p ∈ ["bad", "good"] ∧ fetchW p = .ok r ∧
          r.status = 200 ∧ st'.chain = r.chain ∧
          ((init "t0").chain.length : Int) < r.length ∧
          is_chain_valid H0 r.chain = .ok true)) ∧
      ((∃ p ∈ ["bad", "good"], ∃ r, fetchW p = .ok r ∧ r.status = 200 ∧
          ((init "t0").chain.length : Int) < r.length ∧
          is_chain_valid H0 r.chain = .ok true) →
        res = some true) :=
  replace_chain_amended_spec H0 (init "t0") ["bad", "good"] fetchW
    (by
      intro p hp
      simp only [List.mem_cons, List.not_mem_nil, or_false] at hp
      rcases hp with rfl | rfl
      · exact ⟨_, rfl⟩
      · exact ⟨_, rfl⟩)
    (by
      intro p hp r hr hs
      simp only [List.mem_cons, List.not_mem_nil, or_false] at hp
      rcases hp with rfl | rfl
      · rw [show fetchW "bad" = .ok ⟨500, 0, [gBlock]⟩ from rfl] at hr
        injection hr with hr
        subst hr
        decide
      · rw [show fetchW "good" = .ok ⟨200, 2, [gBlock, wb1]⟩ from rfl] at hr
        injection hr with hr
        subst hr
        decide)

/-- Counterexample to C1 as stated: (1) a peer whose fetch fails is not
silently skipped — the connection error propagates out of `replace_chain`, so
no boolean is returned at all; (2) when no candidate is found the function
falls off the end returning `None`, not `False`; (3) the "strictly longer"
comparison uses the peer's self-reported `length` field — a peer reporting 99
for a two-block chain gets adopted even though its chain is not longer than
the local two-block chain. -/
theorem replace_chain_fetch_error_propagates :
    replace_chain H0 (init "t0") ["dead"] fetchDead = .error .connectionError ∧
    (Except.error .connectionError : Except PyErr (Option Bool × Blockchain))
      ≠ .ok (none, init "t0") ∧
    replace_chain H0 (init "t0") [] fetchDead = .ok (none, init "t0") ∧
    replace_chain H0 stLen2 ["liar"] fetchLiar
      = .ok (some true, { stLen2 with chain := [foreignG, foreignB1] }) ∧
    [foreignG, foreignB1].length = stLen2.chain.length :=
  ⟨by rfl, fun h => Except.noConfusion h, by rfl, by rfl, by rfl⟩

end RockTurtles
